import Mathlib

/-!
Shallow embedding of the document transformation engine of the pdf-api
repository (`app/services/pdf_service.py` and the `/pdf` routes of
`app/api/v1/pdf_manipulation.py`), together with theorems settling the
specification claims about page-range resolution, merge, split, rotate,
compress and image extraction.

Documents are abstracted to the data each operation actually inspects:
a page list for merge/split, a per-page rotation value for rotate, and a
per-page list of embedded images for compress/extract.  Python `int`
arithmetic is `Int` (floor division `Int.fdiv`, modulo `Int.fmod`,
`%` on nonnegative values `Int.emod`), Python exceptions are `Option` or
`Except`, and Python truthiness of optional parameters is modelled
explicitly.
-/

namespace PdfApi

/-- Builds `n` consecutive integers starting at `a`. -/
def intRangeAux : Nat → Int → List Int
  | 0, _ => []
  | n + 1, a => a :: intRangeAux n (a + 1)

/-- Integers in the half-open interval `[a, b)`, the meaning of Python `range(a, b)`. -/
def intRange (a b : Int) : List Int := intRangeAux (b - a).toNat a

/-- Removes every space character: `pages.replace(' ', '')`. -/
def stripSpaces (l : List Char) : List Char := l.filter (fun c => c ≠ ' ')

/-- Splitting a character list at every occurrence of `c`, the meaning of
Python `str.split(c)` (in particular `[] ↦ [[]]`). -/
def splitOnChar (c : Char) : List Char → List (List Char)
  | [] => [[]]
  | ch :: rest =>
    match splitOnChar c rest with
    | [] => if ch = c then [[], []] else [[ch]]
    | cur :: tail => if ch = c then [] :: cur :: tail else (ch :: cur) :: tail

/-- Value of a nonempty all-digit character list, `none` otherwise. -/
def digitsToNat : List Char → Option Nat
  | [] => none
  | [ch] => if ch.isDigit then some (ch.toNat - '0'.toNat) else none
  | ch :: rest =>
    match digitsToNat rest, ch.isDigit with
    | some n, true => some ((ch.toNat - '0'.toNat) * 10 ^ rest.length + n)
    | _, _ => none

/-- Decimal integer parsing (optional sign, then digits) as Python `int()`
performs on the space-stripped ASCII tokens this resolver feeds it. -/
def parseInt? : List Char → Option Int
  | [] => none
  | '+' :: rest => (digitsToNat rest).map (fun n => (n : Int))
  | '-' :: rest => (digitsToNat rest).map (fun n => -(n : Int))
  | l => (digitsToNat l).map (fun n => (n : Int))

/-- Evaluation of Python `sorted(set(xs))`: the distinct elements in
ascending order. -/
def sortedSet (l : List Int) : List Int := l.dedup.insertionSort (· ≤ ·)

/-- One comma-separated token of `PDFService.parse_page_ranges`
(`pdf_service.py` lines 58-65): a hyphenated token `a-b` contributes
`range(a-1, min(b, total))`; a plain token `n` contributes `n-1` when
`0 <= n-1 < total` and nothing otherwise. `none` models the `ValueError`
Python raises on a malformed token. -/
def parseToken (total : Int) (tok : List Char) : Option (List Int) :=
  if tok.contains '-' then
    match splitOnChar '-' tok with
    | [sa, sb] =>
      match parseInt? sa, parseInt? sb with
      | some a, some b => some (intRange (a - 1) (min b total))
      | _, _ => none
    | _ => none
  else
    match parseInt? tok with
    | some n => some (if 0 ≤ n - 1 ∧ n - 1 < total then [n - 1] else [])
    | none => none

/-- The `for range_str in ranges` loop of `parse_page_ranges`: every token
must parse, and the contributions are collected in order; a failing token
aborts the whole call (Python exception propagation). -/
def mapTokens (total : Int) : List (List Char) → Option (List (List Int))
  | [] => some []
  | t :: rest =>
    match parseToken total t, mapTokens total rest with
    | some l, some ls => some (l :: ls)
    | _, _ => none

/-- The resolver `PDFService.parse_page_ranges(pages, total_pages)`
(`pdf_service.py` lines 50-67).  A falsy `pages` (absent or empty) yields
`list(range(total_pages))`; otherwise spaces are removed, the string is split
on commas, each token is parsed by `parseToken`, and the collected page
numbers are returned as `sorted(set(...))`.  `none` models a raised
`ValueError`. -/
def parse_page_ranges (pages : Option String) (total_pages : Int) : Option (List Int) :=
  match pages with
  | none => some (intRange 0 total_pages)
  | some s =>
    if s = "" then some (intRange 0 total_pages)
    else
      match mapTokens total_pages (splitOnChar ',' (stripSpaces s.data)) with
      | some contribs => some (sortedSet contribs.flatten)
      | none => none

/-- Failure kinds observable in the merge endpoint: the route's explicit
`ValueError`/`HTTPException(400)` on a mismatched order length, versus the
`IndexError` Python raises inside `pdf_files[i]`. -/
inductive MergeError where
  | validation
  | indexError
deriving DecidableEq

/-- Python list indexing `l[i]`: negative indices count from the end;
out-of-range indexing raises `IndexError` (modelled as `none`). -/
def pyListGet (l : List α) (i : Int) : Option α :=
  if 0 ≤ i then l.get? i.toNat
  else if 0 ≤ i + l.length then l.get? (i + l.length).toNat
  else none

/-- The reordering comprehension `[pdf_files[i] for i in order]`
(`pdf_service.py` line 80); any out-of-range index aborts with `IndexError`. -/
def reorderFiles (files : List (List Nat)) : List Int → Option (List (List Nat))
  | [] => some []
  | i :: rest =>
    match pyListGet files i, reorderFiles files rest with
    | some f, some fs => some (f :: fs)
    | _, _ => none

/-- The service method `PDFService.merge_pdfs(pdf_files, order)`
(`pdf_service.py` lines 69-94).  A document is its page list;
`PdfMerger.append` over the (possibly reordered) inputs concatenates whole
documents, i.e. flattens.  A falsy `order` (absent or the empty list) leaves
the input order unchanged. -/
def merge_pdfs (pdf_files : List (List Nat)) (order : Option (List Int)) :
    Except MergeError (List Nat) :=
  match order with
  | some l =>
    if l = [] then .ok pdf_files.flatten
    else
      match reorderFiles pdf_files l with
      | some files => .ok files.flatten
      | none => .error .indexError
  | none => .ok pdf_files.flatten

/-- The `/pdf/merge` route (`pdf_manipulation.py` lines 42-99) with the order
string already parsed into a list: a supplied order whose length differs from
the number of files fails with the validation error before the service runs. -/
def mergeRoute (files : List (List Nat)) (order : Option (List Int)) :
    Except MergeError (List Nat) :=
  match order with
  | some l =>
    if l.length ≠ files.length then .error .validation
    else merge_pdfs files (some l)
  | none => merge_pdfs files none

/-- Failure kinds observable in the split endpoint: the route's explicit
`HTTPException(400)` on the pages/chunks exclusivity checks, the `ValueError`
a malformed range expression raises inside the service, and the `IndexError`
of an out-of-range page access. -/
inductive SplitError where
  | validation
  | parseError
  | indexError
deriving DecidableEq

/-- Python truthiness of the optional `pages` form field
(`None` and `""` are falsy). -/
def pagesTruthy : Option String → Bool
  | none => false
  | some s => s ≠ ""

/-- Python truthiness of the optional `chunks` form field
(`None` and `0` are falsy). -/
def chunksTruthy : Option Int → Bool
  | none => false
  | some c => c ≠ 0

/-- The page-copying loop `for page_num in range(start, end):
writer.add_page(pdf_reader.pages[page_num])`; all accesses in reachable
configurations are in bounds, so `getD` never falls back to its default. -/
def pageSliceList (doc : List Nat) (s e : Int) : List Nat :=
  (intRange s e).map (fun j => doc.getD j.toNat 0)

/-- The chunk loop of `split_pdf` (`pdf_service.py` lines 112-125): one slice
per index of `range(chunks)`, each of `pages_per_chunk` pages plus one extra
for the first `remainder` indices, with `start` carried across iterations. -/
def chunkLoop (doc : List Nat) (ppc rem : Int) : List Int → Int → List (List Nat)
  | [], _ => []
  | i :: rest, start =>
    pageSliceList doc start (start + ppc + if i < rem then 1 else 0) ::
      chunkLoop doc ppc rem rest (start + ppc + if i < rem then 1 else 0)

/-- The chunks branch of `split_pdf`: `pages_per_chunk = total // chunks`
(Python floor division) and `remainder = total % chunks` (Python modulo),
then the chunk loop over `range(chunks)` starting at page 0. -/
def chunkSlices (doc : List Nat) (c : Int) : List (List Nat) :=
  chunkLoop doc ((doc.length : Int).fdiv c) ((doc.length : Int).fmod c) (intRange 0 c) 0

/-- Page index at which chunk `j` starts: closed form of the running `start`. -/
def chunkStart (ppc rem j : Int) : Int := j * ppc + min j rem

/-- The `for page_num in page_list` selection loop of the pages branch of
`split_pdf` (lines 130-132), with Python indexing. -/
def selectPages (doc : List Nat) : List Int → Option (List Nat)
  | [] => some []
  | i :: rest =>
    match pyListGet doc i, selectPages doc rest with
    | some p, some ps => some (p :: ps)
    | _, _ => none

/-- The pages branch of `split_pdf` (lines 126-137): resolve the range
expression, then emit a single document with the selected pages. -/
def splitByPages (doc : List Nat) (pages : Option String) :
    Except SplitError (List (List Nat)) :=
  match parse_page_ranges pages doc.length with
  | none => .error .parseError
  | some sel =>
    match selectPages doc sel with
    | some ps => .ok [ps]
    | none => .error .indexError

/-- The service method `PDFService.split_pdf(pdf_data, pages, chunks)`
(`pdf_service.py` lines 96-139): a truthy `chunks` selects the chunk branch,
anything else the pages branch. -/
def split_pdf (doc : List Nat) (pages : Option String) (chunks : Option Int) :
    Except SplitError (List (List Nat)) :=
  match chunks with
  | some c => if c = 0 then splitByPages doc pages else .ok (chunkSlices doc c)
  | none => splitByPages doc pages

/-- The `/pdf/split` route (`pdf_manipulation.py` lines 150-217): rejects a
request in which `pages` and `chunks` are both truthy, then one in which
neither is, before invoking the service. -/
def splitRoute (doc : List Nat) (pages : Option String) (chunks : Option Int) :
    Except SplitError (List (List Nat)) :=
  if pagesTruthy pages && chunksTruthy chunks then .error .validation
  else if !pagesTruthy pages && !chunksTruthy chunks then .error .validation
  else split_pdf doc pages chunks

/-- The page loop of `rotate_pdf` (`pdf_service.py` lines 219-225), carrying
the 0-based page counter: a page whose index lies in the selected set gets
`page.rotate(angle)`, every other page is copied unchanged.  The library
call `PageObject.rotate` is not part of this repository; per the spec it
composes with the existing per-page rotation value additively, modulo 360. -/
def rotateLoop (sel : List Int) (angle : Int) : Nat → List Int → List Int
  | _, [] => []
  | i, r :: rest =>
    (if (i : Int) ∈ sel then (r + angle) % 360 else r) :: rotateLoop sel angle (i + 1) rest

/-- The service method `PDFService.rotate_pdf(pdf_data, angle, pages)`
(`pdf_service.py` lines 204-232), a document abstracted to its per-page
rotation values.  A truthy `pages` is resolved by the range parser (whose
failure propagates as `none`), a falsy one selects `range(total_pages)`. -/
def rotate_pdf (doc : List Int) (angle : Int) (pages : Option String) : Option (List Int) :=
  match (if pagesTruthy pages then parse_page_ranges pages doc.length
         else some (intRange 0 doc.length)) with
  | none => none
  | some sel => some (rotateLoop sel angle 0 doc)

/-- An embedded raster image as `fitz.Pixmap` exposes it: pixel dimensions,
component count `n` (colour components plus alpha), and alpha channel count. -/
structure PdfImage where
  width : Nat
  height : Nat
  n : Nat
  alpha : Nat
deriving DecidableEq

/-- What `compress_pdf` does to one embedded image: either left untouched
(the GRAY/RGB test fails) or re-encoded as JPEG at the given quality, after
an optional uniform rescale by the recorded rational factor. -/
inductive ImageResult where
  | untouched (img : PdfImage)
  | reencoded (img : PdfImage) (factor : Option ℚ) (quality : Nat)
deriving DecidableEq

/-- The `compression_settings` table with its `.get(level, settings["medium"])`
fallback (`pdf_service.py` lines 155-162), projected to `image_quality`. -/
def compression_quality (level : String) : Nat :=
  if level = "low" then 85
  else if level = "medium" then 70
  else if level = "high" then 50
  else if level = "extreme" then 30
  else 70

/-- The per-image body of `compress_pdf` (`pdf_service.py` lines 175-193):
images with fewer than 4 non-alpha components (GRAY or RGB) are rescaled by
`min(target_dpi/width, target_dpi/height)` when a dimension exceeds
`target_dpi`, then re-encoded as JPEG at the configured quality and written
back over the original stream; all other images are skipped. -/
def processImage (quality : Nat) (target_dpi : Nat) (img : PdfImage) : ImageResult :=
  if img.n - img.alpha < 4 then
    .reencoded img
      (if target_dpi < img.width ∨ target_dpi < img.height then
        some (min ((target_dpi : ℚ) / img.width) ((target_dpi : ℚ) / img.height))
      else none)
      quality
  else .untouched img

/-- The service method `PDFService.compress_pdf` (`pdf_service.py` lines
141-202) restricted to its image-processing effect: every image of every
page goes through `processImage` with the level's quality. -/
def compress_pdf (level : String) (target_dpi : Nat) (doc : List (List PdfImage)) :
    List (List ImageResult) :=
  doc.map (fun page => page.map (processImage (compression_quality level) target_dpi))

/-- One record of the `extracted_images` result list (`pdf_service.py`
lines 445-452): 1-based page number, image index within the page, pixel
dimensions and the requested output format. -/
structure ExtractedImage where
  page : Int
  index : Nat
  width : Nat
  height : Nat
  format : String
deriving DecidableEq

/-- Python `enumerate` over a page's image list, carrying the counter. -/
def enumIdx : Nat → List PdfImage → List (Nat × PdfImage)
  | _, [] => []
  | k, img :: rest => (k, img) :: enumIdx (k + 1) rest

/-- Evaluation of `pdf_document[page_num]` for a resolver-produced index
(Python indexing; the resolver keeps indices below `total`, and the only
possible negative index, `-1`, selects the last page). -/
def pageImages (doc : List (List PdfImage)) (p : Int) : List PdfImage :=
  (pyListGet doc p).getD []

/-- The inner image loop of `extract_images` on one page (`pdf_service.py`
lines 433-454): an image is kept iff both dimensions meet the minimums. -/
def pageEntries (doc : List (List PdfImage)) (minw minh : Nat) (fmt : String)
    (p : Int) : List ExtractedImage :=
  (enumIdx 0 (pageImages doc p)).filterMap (fun ji =>
    if minw ≤ ji.2.width ∧ minh ≤ ji.2.height then
      some (ExtractedImage.mk (p + 1) ji.1 ji.2.width ji.2.height fmt)
    else none)

/-- The outer page loop of `extract_images`. -/
def collectPages (doc : List (List PdfImage)) (minw minh : Nat) (fmt : String) :
    List Int → List ExtractedImage
  | [] => []
  | p :: rest =>
    pageEntries doc minw minh fmt p ++ collectPages doc minw minh fmt rest

/-- The service method `PDFService.extract_images(pdf_data, pages, min_width,
min_height, image_format)` (`pdf_service.py` lines 412-457). -/
def extract_images (doc : List (List PdfImage)) (pages : Option String)
    (min_width min_height : Nat) (image_format : String) :
    Option (List ExtractedImage) :=
  match (if pagesTruthy pages then parse_page_ranges pages doc.length
         else some (intRange 0 doc.length)) with
  | none => none
  | some sel => some (collectPages doc min_width min_height image_format sel)

theorem mem_intRangeAux {n : Nat} {a i : Int} :
    i ∈ intRangeAux n a ↔ a ≤ i ∧ i < a + n := by
  induction n generalizing a with
  | zero => simp [intRangeAux]
  | succ m ih =>
    simp only [intRangeAux, List.mem_cons, ih]
    omega

theorem mem_intRange {a b i : Int} : i ∈ intRange a b ↔ a ≤ i ∧ i < b := by
  rw [intRange, mem_intRangeAux]
  omega

theorem intRange_eq_cons {a b : Int} (h : a < b) :
    intRange a b = a :: intRange (a + 1) b := by
  rw [intRange, intRange]
  have h1 : (b - a).toNat = (b - (a + 1)).toNat + 1 := by omega
  rw [h1, intRangeAux]

theorem intRange_eq_nil {a b : Int} (h : b ≤ a) : intRange a b = [] := by
  rw [intRange]
  have h1 : (b - a).toNat = 0 := by omega
  rw [h1, intRangeAux]

theorem length_intRange {a b : Int} : (intRange a b).length = (b - a).toNat := by
  rw [intRange]
  induction (b - a).toNat generalizing a with
  | zero => rfl
  | succ m ih => simp [intRangeAux, ih]

theorem length_intRangeAux (n : Nat) (a : Int) : (intRangeAux n a).length = n := by
  induction n generalizing a with
  | zero => rfl
  | succ m ih => simp [intRangeAux, ih]

theorem getElem?_intRangeAux (n : Nat) (a : Int) (k : Nat) :
    (intRangeAux n a)[k]? = if k < n then some (a + k) else none := by
  induction n generalizing a k with
  | zero => simp [intRangeAux]
  | succ m ih =>
    cases k with
    | zero => simp [intRangeAux]
    | succ j =>
      rw [intRangeAux, List.getElem?_cons_succ, ih]
      by_cases hj : j < m
      · rw [if_pos hj, if_pos (by omega)]
        congr 1
        push_cast
        ring
      · rw [if_neg hj, if_neg (by omega)]

theorem getElem_intRange {a b : Int} {k : Nat} (h : k < (intRange a b).length) :
    (intRange a b)[k] = a + k := by
  rw [List.getElem_eq_iff, intRange, getElem?_intRangeAux]
  rw [intRange, length_intRangeAux] at h
  rw [if_pos h]

theorem intRangeAux_append (m n : Nat) (a : Int) :
    intRangeAux m a ++ intRangeAux n (a + m) = intRangeAux (m + n) a := by
  induction m generalizing a with
  | zero => simp [intRangeAux]
  | succ p ih =>
    have harg : a + ((p : Int) + 1) = (a + 1) + p := by ring
    rw [intRangeAux, List.cons_append]
    push_cast
    rw [harg, ih (a + 1)]
    have hn : p + 1 + n = (p + n) + 1 := by omega
    rw [hn, intRangeAux]

theorem intRange_append {a b c : Int} (hab : a ≤ b) (hbc : b ≤ c) :
    intRange a b ++ intRange b c = intRange a c := by
  have h1 : a + ((b - a).toNat : Int) = b := by omega
  have h2 : (b - a).toNat + (c - b).toNat = (c - a).toNat := by omega
  rw [intRange, intRange, intRange, ← h2, ← intRangeAux_append, h1]

theorem sorted_intRangeAux (n : Nat) (a : Int) :
    (intRangeAux n a).Sorted (· ≤ ·) := by
  induction n generalizing a with
  | zero => exact List.sorted_nil
  | succ m ih =>
    rw [intRangeAux, List.sorted_cons]
    exact ⟨fun x hx => by have := mem_intRangeAux.mp hx; omega, ih (a + 1)⟩

theorem nodup_intRangeAux (n : Nat) (a : Int) : (intRangeAux n a).Nodup := by
  induction n generalizing a with
  | zero => exact List.nodup_nil
  | succ m ih =>
    rw [intRangeAux, List.nodup_cons]
    exact ⟨fun hx => by have := mem_intRangeAux.mp hx; omega, ih (a + 1)⟩

theorem sorted_intRange (a b : Int) : (intRange a b).Sorted (· ≤ ·) :=
  sorted_intRangeAux _ _

theorem nodup_intRange (a b : Int) : (intRange a b).Nodup :=
  nodup_intRangeAux _ _

theorem sortedSet_sorted (l : List Int) : (sortedSet l).Sorted (· ≤ ·) :=
  List.sorted_insertionSort _ _

theorem sortedSet_nodup (l : List Int) : (sortedSet l).Nodup :=
  ((List.perm_insertionSort _ _).symm).nodup (List.nodup_dedup l)

theorem mem_sortedSet {l : List Int} {i : Int} : i ∈ sortedSet l ↔ i ∈ l := by
  unfold sortedSet
  rw [(List.perm_insertionSort _ _).mem_iff, List.mem_dedup]

/-- Every page index a single token contributes is below `total`. -/
theorem parseToken_lt_total {total : Int} {tok : List Char} {l : List Int}
    (h : parseToken total tok = some l) : ∀ i ∈ l, i < total := by
  intro i hi
  unfold parseToken at h
  split at h
  · split at h
    next sa sb =>
      split at h
      next a b _ _ =>
        cases h
        have := mem_intRange.mp hi
        omega
      next => cases h
    next => cases h
  · split at h
    next n _ =>
      cases h
      split at hi
      next hcond => simp at hi; omega
      next => simp at hi
    next => cases h

theorem mapTokens_mem {total : Int} {toks : List (List Char)} {ls : List (List Int)}
    (h : mapTokens total toks = some ls) :
    ∀ l ∈ ls, ∃ t ∈ toks, parseToken total t = some l := by
  induction toks generalizing ls with
  | nil =>
    cases h
    intro l hl
    cases hl
  | cons t rest ih =>
    rw [mapTokens] at h
    split at h
    next l0 ls0 h1 h2 =>
      cases h
      intro l hl
      rcases List.mem_cons.mp hl with rfl | hmem
      · exact ⟨t, List.mem_cons_self .., h1⟩
      · rcases ih h2 l hmem with ⟨t', ht', hp⟩
        exact ⟨t', List.mem_cons_of_mem _ ht', hp⟩
    next => cases h

theorem merge_pdfs_ne_validation (files : List (List Nat)) (order : Option (List Int)) :
    merge_pdfs files order ≠ .error .validation := by
  cases order with
  | none => simp [merge_pdfs]
  | some l =>
    rw [merge_pdfs]
    split
    · simp
    · cases reorderFiles files l <;> simp

theorem reorderFiles_of_bounds (files : List (List Nat)) (l : List Int)
    (hb : ∀ i ∈ l, 0 ≤ i ∧ i < (files.length : Int)) :
    reorderFiles files l = some (l.map (fun i => files.getD i.toNat [])) := by
  induction l with
  | nil => rfl
  | cons i rest ih =>
    have hi := hb i (List.mem_cons_self ..)
    have hrest := ih (fun j hj => hb j (List.mem_cons_of_mem _ hj))
    have hlt : i.toNat < files.length := by omega
    rw [reorderFiles, hrest, pyListGet, if_pos hi.1, List.get?_eq_get hlt]
    simp [List.getD_eq_getElem?_getD, List.getElem?_eq_getElem hlt]

theorem split_pdf_ne_validation (doc : List Nat) (pages : Option String)
    (chunks : Option Int) : split_pdf doc pages chunks ≠ .error .validation := by
  have hpages : splitByPages doc pages ≠ .error .validation := by
    rw [splitByPages]
    cases parse_page_ranges pages doc.length with
    | none => simp
    | some sel => cases hsel : selectPages doc sel <;> simp [hsel]
  cases chunks with
  | none => exact hpages
  | some c =>
    rw [split_pdf]
    split
    · exact hpages
    · simp

theorem pageSliceList_append (doc : List Nat) {s e f : Int} (h1 : s ≤ e) (h2 : e ≤ f) :
    pageSliceList doc s e ++ pageSliceList doc e f = pageSliceList doc s f := by
  rw [pageSliceList, pageSliceList, pageSliceList, ← List.map_append,
    intRange_append h1 h2]

theorem length_pageSliceList (doc : List Nat) (s e : Int) :
    (pageSliceList doc s e).length = (e - s).toNat := by
  rw [pageSliceList, List.length_map, length_intRange]

theorem pageSliceList_full (doc : List Nat) :
    pageSliceList doc 0 doc.length = doc := by
  apply List.ext_getElem
  · rw [length_pageSliceList]
    omega
  · intro k h1 h2
    rw [List.getElem_eq_iff]
    show ((intRange 0 doc.length).map (fun j => doc.getD j.toNat 0))[k]? = some doc[k]
    rw [List.getElem?_map, intRange, getElem?_intRangeAux,
      if_pos (show k < (((doc.length : Int)) - 0).toNat by omega)]
    have hk : ((0 : Int) + (k : Int)).toNat = k := by omega
    simp [hk, List.getD_eq_getElem?_getD, List.getElem?_eq_getElem h2]

theorem chunkStart_succ (ppc rem j : Int) :
    chunkStart ppc rem (j + 1) =
      chunkStart ppc rem j + ppc + (if j < rem then 1 else 0) := by
  have hm : min (j + 1) rem = min j rem + (if j < rem then 1 else 0) := by
    split <;> omega
  rw [chunkStart, chunkStart, hm]
  ring

theorem chunkStart_mono {ppc rem j k : Int} (hppc : 0 ≤ ppc) (hjk : j ≤ k) :
    chunkStart ppc rem j ≤ chunkStart ppc rem k := by
  have h1 : 0 ≤ (k - j) * ppc := mul_nonneg (by omega) hppc
  have h2 : k * ppc - j * ppc = (k - j) * ppc := by ring
  have h3 : min j rem ≤ min k rem := by omega
  rw [chunkStart, chunkStart]
  omega

theorem chunkLoop_flatten (doc : List Nat) (ppc rem : Int) (hppc : 0 ≤ ppc) :
    ∀ (n : Nat) (i : Int),
      (chunkLoop doc ppc rem (intRange i (i + n)) (chunkStart ppc rem i)).flatten =
        pageSliceList doc (chunkStart ppc rem i) (chunkStart ppc rem (i + n)) := by
  intro n
  induction n with
  | zero =>
    intro i
    rw [Nat.cast_zero, add_zero, intRange_eq_nil le_rfl, chunkLoop]
    simp [pageSliceList, intRange_eq_nil le_rfl]
  | succ m ih =>
    intro i
    have hcons : intRange i (i + ((m : Nat) + 1 : Nat)) =
        i :: intRange (i + 1) (i + ((m : Nat) + 1 : Nat)) :=
      intRange_eq_cons (by push_cast; omega)
    rw [hcons, chunkLoop, List.flatten_cons, ← chunkStart_succ ppc rem i]
    have harg : i + (((m : Nat) + 1 : Nat) : Int) = (i + 1) + (m : Int) := by
      push_cast
      ring
    rw [harg, ih (i + 1)]
    exact pageSliceList_append doc
      (chunkStart_mono hppc (by omega))
      (chunkStart_mono hppc (by omega))

theorem chunkLoop_length (doc : List Nat) (ppc rem : Int) :
    ∀ (idxs : List Int) (start : Int),
      (chunkLoop doc ppc rem idxs start).length = idxs.length := by
  intro idxs
  induction idxs with
  | nil => intro start; rfl
  | cons i rest ih => intro start; rw [chunkLoop]; simp [ih]

theorem chunkLoop_map_length (doc : List Nat) (ppc rem : Int) (hppc : 0 ≤ ppc) :
    ∀ (idxs : List Int) (start : Int),
      (chunkLoop doc ppc rem idxs start).map List.length =
        idxs.map (fun i => (ppc + if i < rem then 1 else 0).toNat) := by
  intro idxs
  induction idxs with
  | nil => intro start; rfl
  | cons i rest ih =>
    intro start
    rw [chunkLoop, List.map_cons, List.map_cons, ih, length_pageSliceList]
    congr 1
    omega

theorem chunkLoop_full (doc : List Nat) (ppc rem c : Int) (hppc : 0 ≤ ppc)
    (hrem : 0 ≤ rem) (hremlt : rem < c) (hid : c * ppc + rem = doc.length) :
    (chunkLoop doc ppc rem (intRange 0 c) 0).flatten = doc := by
  have hstart0 : chunkStart ppc rem 0 = 0 := by
    simp [chunkStart]
    omega
  have hstartc : chunkStart ppc rem c = doc.length := by
    rw [chunkStart]
    have hmin : min c rem = rem := by omega
    rw [hmin]
    linarith
  have h := chunkLoop_flatten doc ppc rem hppc c.toNat 0
  rw [hstart0, show (0 : Int) + ((c.toNat : Nat) : Int) = c by omega] at h
  rw [h, hstartc, pageSliceList_full]

theorem chunkSlices_size (doc : List Nat) (ppc rem c : Int) (hppc : 0 ≤ ppc)
    (hc : 1 ≤ c) (k : Nat) (hk : k < c.toNat) :
    ((chunkLoop doc ppc rem (intRange 0 c) 0).getD k []).length =
      (ppc + if (k : Int) < rem then 1 else 0).toNat := by
  have hlen : (chunkLoop doc ppc rem (intRange 0 c) 0).length = c.toNat := by
    rw [chunkLoop_length, length_intRange]
    omega
  have hk1 : k < (chunkLoop doc ppc rem (intRange 0 c) 0).length := by omega
  rw [List.getD_eq_getElem?_getD, List.getElem?_eq_getElem hk1, Option.getD_some]
  have hmap := chunkLoop_map_length doc ppc rem hppc (intRange 0 c) 0
  have hq := congrArg (fun l => l[k]?) hmap
  have hkir : k < (intRange 0 c).length := by
    rw [length_intRange]
    omega
  simp only [List.getElem?_map, List.getElem?_eq_getElem hk1,
    List.getElem?_eq_getElem hkir, Option.map_some'] at hq
  rw [getElem_intRange hkir] at hq
  have hval := Option.some.inj hq
  rw [hval, show (0 : Int) + (k : Int) = (k : Int) by ring]

/-- The `pages if pages else range(total)` selector used by several service
methods agrees with `parse_page_ranges` outright, because the parser already
maps falsy input to the full range. -/
theorem selector_eq_parse (pages : Option String) (total : Int) :
    (if pagesTruthy pages then parse_page_ranges pages total
     else some (intRange 0 total)) = parse_page_ranges pages total := by
  cases pages with
  | none => rfl
  | some s =>
    by_cases hs : s = ""
    · subst hs
      rfl
    · simp [pagesTruthy, hs]

theorem rotateLoop_length (sel : List Int) (angle : Int) :
    ∀ (k : Nat) (d : List Int), (rotateLoop sel angle k d).length = d.length := by
  intro k d
  induction d generalizing k with
  | nil => rfl
  | cons r rest ih => simp [rotateLoop, ih]

theorem rotateLoop_getElem? (sel : List Int) (angle : Int) :
    ∀ (d : List Int) (k j : Nat),
      (rotateLoop sel angle k d)[j]? =
        d[j]?.map (fun r => if ((k + j : Nat) : Int) ∈ sel then (r + angle) % 360 else r) := by
  intro d
  induction d with
  | nil => intro k j; simp [rotateLoop]
  | cons r rest ih =>
    intro k j
    cases j with
    | zero => simp [rotateLoop]
    | succ m =>
      rw [rotateLoop, List.getElem?_cons_succ, List.getElem?_cons_succ, ih (k + 1) m]
      have : k + 1 + m = k + (m + 1) := by omega
      rw [this]

theorem rotateLoop_comp (sel : List Int) (a b : Int) :
    ∀ (k : Nat) (d : List Int),
      rotateLoop sel b k (rotateLoop sel a k d) = rotateLoop sel (a + b) k d := by
  intro k d
  induction d generalizing k with
  | nil => rfl
  | cons r rest ih =>
    rw [rotateLoop, rotateLoop, rotateLoop, ih (k + 1)]
    congr 1
    by_cases hk : ((k : Nat) : Int) ∈ sel
    · rw [if_pos hk, if_pos hk, if_pos hk]
      omega
    · rw [if_neg hk, if_neg hk, if_neg hk]

theorem mem_enumIdx {k j : Nat} {img : PdfImage} :
    ∀ {l : List PdfImage},
      ((j, img) ∈ enumIdx k l ↔ k ≤ j ∧ l[j - k]? = some img) := by
  intro l
  induction l generalizing k with
  | nil => simp [enumIdx]
  | cons a rest ih =>
    rw [enumIdx, List.mem_cons, ih]
    constructor
    · rintro (he | ⟨hk, hget⟩)
      · injection he with h1 h2
        subst h1
        subst h2
        simp
      · refine ⟨by omega, ?_⟩
        have : j - k = (j - (k + 1)) + 1 := by omega
        rw [this, List.getElem?_cons_succ]
        exact hget
    · rintro ⟨hk, hget⟩
      by_cases hj : j = k
      · subst hj
        left
        simp at hget
        rw [hget]
      · right
        refine ⟨by omega, ?_⟩
        have : j - k = (j - (k + 1)) + 1 := by omega
        rw [this, List.getElem?_cons_succ] at hget
        exact hget

theorem mem_pageEntries {doc : List (List PdfImage)} {minw minh : Nat}
    {fmt : String} {p : Int} {e : ExtractedImage} :
    e ∈ pageEntries doc minw minh fmt p ↔
      ∃ (j : Nat) (img : PdfImage), (pageImages doc p)[j]? = some img ∧
        minw ≤ img.width ∧ minh ≤ img.height ∧
        e = ExtractedImage.mk (p + 1) j img.width img.height fmt := by
  rw [pageEntries, List.mem_filterMap]
  constructor
  · rintro ⟨⟨j, img⟩, hmem, hsome⟩
    have hj := mem_enumIdx.mp hmem
    split at hsome
    · next hcond =>
      exact ⟨j, img, by simpa using hj.2, hcond.1, hcond.2, (Option.some.inj hsome).symm⟩
    · cases hsome
  · rintro ⟨j, img, hget, hw, hh, rfl⟩
    refine ⟨(j, img), mem_enumIdx.mpr ⟨Nat.zero_le j, by simpa using hget⟩, ?_⟩
    rw [if_pos ⟨hw, hh⟩]

theorem mem_collectPages {doc : List (List PdfImage)} {minw minh : Nat}
    {fmt : String} {e : ExtractedImage} :
    ∀ {sel : List Int},
      (e ∈ collectPages doc minw minh fmt sel ↔
        ∃ p ∈ sel, e ∈ pageEntries doc minw minh fmt p) := by
  intro sel
  induction sel with
  | nil => simp [collectPages]
  | cons p rest ih =>
    rw [collectPages, List.mem_append, ih]
    constructor
    · rintro (h | ⟨q, hq, he⟩)
      · exact ⟨p, List.mem_cons_self .., h⟩
      · exact ⟨q, List.mem_cons_of_mem _ hq, he⟩
    · rintro ⟨q, hq, he⟩
      rcases List.mem_cons.mp hq with rfl | hq2
      · exact Or.inl he
      · exact Or.inr ⟨q, hq2, he⟩

/-- C1: empty/null resolution yields all of `[0, total)`; a plain token `n`
contributes `n-1` exactly when in bounds; a token `a-b` contributes the
indices of `[a-1, min(b, total))`; and the two concrete spec examples
`resolve("1-3,5,7-10", 12)` and `resolve("2,4-6", 6)` hold. -/
theorem pageRanges_resolution :
    (∀ total : Int, 0 ≤ total →
      parse_page_ranges none total = some (intRange 0 total) ∧
      parse_page_ranges (some "") total = some (intRange 0 total) ∧
      ∀ i : Int, i ∈ intRange 0 total ↔ 0 ≤ i ∧ i < total) ∧
    (∀ (total n : Int) (tok : List Char), tok.contains '-' = false →
      parseInt? tok = some n →
      parseToken total tok = some (if 0 ≤ n - 1 ∧ n - 1 < total then [n - 1] else [])) ∧
    (∀ (total a b : Int) (tok sa sb : List Char), tok.contains '-' = true →
      splitOnChar '-' tok = [sa, sb] →
      parseInt? sa = some a → parseInt? sb = some b →
      parseToken total tok = some (intRange (a - 1) (min b total)) ∧
      ∀ i : Int, i ∈ intRange (a - 1) (min b total) ↔ a - 1 ≤ i ∧ i < min b total) ∧
    parse_page_ranges (some "1-3,5,7-10") 12 = some [0, 1, 2, 4, 6, 7, 8, 9] ∧
    parse_page_ranges (some "2,4-6") 6 = some [1, 3, 4, 5] := by
  refine ⟨?_, ?_, ?_, by decide, by decide⟩
  · intro total _
    exact ⟨rfl, rfl, fun i => mem_intRange⟩
  · intro total n tok hc hp
    rw [parseToken, hc]
    simp only [Bool.false_eq_true, if_false, hp]
  · intro total a b tok sa sb hc hsplit hpa hpb
    rw [parseToken, hc]
    simp only [if_true, hsplit, hpa, hpb]
    exact ⟨trivial, fun i => mem_intRange⟩

/-- C1 witness. -/
theorem pageRanges_resolution_witness :
    parse_page_ranges none 3 = some (intRange 0 3) ∧
    parseToken 12 "5".data = some [4] ∧
    parseToken 12 "7-10".data = some (intRange 6 10) ∧
    parse_page_ranges (some "1-3,5,7-10") 12 = some [0, 1, 2, 4, 6, 7, 8, 9] := by
  have h := pageRanges_resolution
  refine ⟨(h.1 3 (by decide)).1, ?_, ?_, h.2.2.2.1⟩
  · have h2 := h.2.1 12 5 "5".data (by decide) (by decide)
    simpa using h2
  · have h3 := h.2.2.1 12 7 10 "7-10".data "7".data "10".data
      (by decide) (by decide) (by decide) (by decide)
    simpa using h3.1

/-- C2 (amended): whenever the resolver accepts an expression, every returned
index is `< total`, the output has no duplicates, and it is sorted ascending.
The claimed lower bound `0 ≤ i` does not hold for range tokens whose lower
numeral is 0. -/
theorem pageRangeSpec_invariant (pages : Option String) (total : Int) (out : List Int)
    (h : parse_page_ranges pages total = some out) :
    out.Sorted (· ≤ ·) ∧ out.Nodup ∧ ∀ i ∈ out, i < total := by
  have hAll : intRange 0 total = out →
      out.Sorted (· ≤ ·) ∧ out.Nodup ∧ ∀ i ∈ out, i < total := by
    rintro rfl
    refine ⟨sorted_intRange 0 total, nodup_intRange 0 total, fun i hi => ?_⟩
    exact (mem_intRange.mp hi).2
  cases pages with
  | none =>
    simp only [parse_page_ranges, Option.some.injEq] at h
    exact hAll h
  | some s =>
    simp only [parse_page_ranges] at h
    by_cases hs : s = ""
    · rw [if_pos hs] at h
      exact hAll (Option.some.inj h)
    · rw [if_neg hs] at h
      cases hmap : mapTokens total (splitOnChar ',' (stripSpaces s.data)) with
      | none => rw [hmap] at h; cases h
      | some contribs =>
        rw [hmap] at h
        cases Option.some.inj h
        refine ⟨sortedSet_sorted _, sortedSet_nodup _, fun i hi => ?_⟩
        have hi2 := mem_sortedSet.mp hi
        rcases List.mem_flatten.mp hi2 with ⟨l, hl, hil⟩
        rcases mapTokens_mem hmap l hl with ⟨t, _, hp⟩
        exact parseToken_lt_total hp i hil

/-- C2 witness. -/
theorem pageRangeSpec_invariant_witness :
    ([1, 3, 4, 5] : List Int).Sorted (· ≤ ·) ∧ ([1, 3, 4, 5] : List Int).Nodup ∧
      ∀ i ∈ ([1, 3, 4, 5] : List Int), i < 6 :=
  pageRangeSpec_invariant (some "2,4-6") 6 [1, 3, 4, 5] (by decide)

/-- C2 counterexample: the resolver accepts `"0-2"` without error, yet the
output contains the index `-1`, violating `0 ≤ i`. -/
theorem pageRangeSpec_claim_counterexample :
    parse_page_ranges (some "0-2") 5 = some [-1, 0, 1] ∧ ¬ (0 ≤ (-1 : Int)) := by
  constructor
  · decide
  · decide

/-- C3 (amended): the merge endpoint fails with the validation error iff the
supplied order length differs from the file count; with matching length and
in-range entries, documents are concatenated in the order sequence.  An
out-of-range entry with matching length fails with an index error instead of
concatenating. -/
theorem merge_order_validation (files : List (List Nat)) (l : List Int) :
    (mergeRoute files (some l) = .error .validation ↔ l.length ≠ files.length) ∧
    mergeRoute files none = .ok files.flatten ∧
    (l.length = files.length → (∀ i ∈ l, 0 ≤ i ∧ i < (files.length : Int)) →
      mergeRoute files (some l) = .ok ((l.map (fun i => files.getD i.toNat [])).flatten)) := by
  refine ⟨⟨fun h => ?_, fun h => ?_⟩, rfl, fun hlen hb => ?_⟩
  · by_contra hne
    rw [mergeRoute, if_neg (show ¬ l.length ≠ files.length by omega)] at h
    exact merge_pdfs_ne_validation files (some l) h
  · rw [mergeRoute, if_pos h]
  · rw [mergeRoute, if_neg (show ¬ l.length ≠ files.length by omega), merge_pdfs]
    split
    · next hl =>
      subst hl
      have : files = [] := by
        cases files with
        | nil => rfl
        | cons a b => simp at hlen
      subst this
      rfl
    · rw [reorderFiles_of_bounds files l hb]

/-- C3 witness. -/
theorem merge_order_validation_witness :
    (mergeRoute [[1, 2], [3]] (some [1, 0, 1]) = .error .validation ↔
      ([1, 0, 1] : List Int).length ≠ ([[1, 2], [3]] : List (List Nat)).length) ∧
    mergeRoute [[1, 2], [3]] none = .ok [1, 2, 3] ∧
    (([1, 0] : List Int).length = ([[1, 2], [3]] : List (List Nat)).length →
      (∀ i ∈ ([1, 0] : List Int), 0 ≤ i ∧ i < (([[1, 2], [3]] : List (List Nat)).length : Int)) →
      mergeRoute [[1, 2], [3]] (some [1, 0]) = .ok [3, 1, 2]) :=
  ⟨(merge_order_validation [[1, 2], [3]] [1, 0, 1]).1,
   (merge_order_validation [[1, 2], [3]] [1, 0]).2.1,
   fun h1 h2 => (merge_order_validation [[1, 2], [3]] [1, 0]).2.2 h1 h2⟩

/-- C3 counterexample: with one input document and `order = [1]` the lengths
match, yet merging raises `IndexError` instead of concatenating. -/
theorem merge_order_claim_counterexample :
    ([1] : List Int).length = ([[5]] : List (List Nat)).length ∧
    mergeRoute [[5]] (some [1]) = .error .indexError :=
  ⟨rfl, rfl⟩

/-- C9: the service treats an explicitly supplied empty order list exactly
like an absent order: all documents are concatenated in input order. -/
theorem merge_empty_order (files : List (List Nat)) :
    merge_pdfs files (some []) = merge_pdfs files none ∧
    merge_pdfs files none = .ok files.flatten :=
  ⟨rfl, rfl⟩

/-- C4: the split endpoint fails with the validation error exactly when
`pages` and `chunks` are both truthy (set) or both falsy (unset); it
proceeds to the service iff exactly one of them is truthy. -/
theorem split_exclusivity (doc : List Nat) (pages : Option String) (chunks : Option Int) :
    splitRoute doc pages chunks = .error .validation ↔
      pagesTruthy pages = chunksTruthy chunks := by
  rw [splitRoute]
  cases hp : pagesTruthy pages <;> cases hc : chunksTruthy chunks <;> simp
  · exact split_pdf_ne_validation doc pages chunks
  · exact split_pdf_ne_validation doc pages chunks

/-- C5: in chunks mode a document is split into exactly `chunks` output
documents; chunk `k` holds `total / chunks` pages plus one extra when
`k < total % chunks`; concatenating the chunks restores the document (hence
sizes sum to `total`), and no two chunk sizes differ by more than 1. -/
theorem split_chunks_arithmetic (doc : List Nat) (c : Int) (hc : 1 ≤ c) :
    split_pdf doc none (some c) = .ok (chunkSlices doc c) ∧
    (chunkSlices doc c).length = c.toNat ∧
    (chunkSlices doc c).flatten = doc ∧
    (∀ k, k < c.toNat →
      ((chunkSlices doc c).getD k []).length =
        doc.length / c.toNat + if k < doc.length % c.toNat then 1 else 0) ∧
    ∀ k1 k2, k1 < c.toNat → k2 < c.toNat →
      ((chunkSlices doc c).getD k1 []).length ≤
        ((chunkSlices doc c).getD k2 []).length + 1 := by
  have hn0 : (0 : Int) ≤ (doc.length : Int) := Int.ofNat_nonneg _
  have hc0 : (0 : Int) ≤ c := by omega
  have hppc : 0 ≤ (doc.length : Int).fdiv c := Int.fdiv_nonneg hn0 hc0
  have hrem : 0 ≤ (doc.length : Int).fmod c := Int.fmod_nonneg hn0 hc0
  have hremlt : (doc.length : Int).fmod c < c := Int.fmod_lt_of_pos _ (by omega)
  have hid : c * (doc.length : Int).fdiv c + (doc.length : Int).fmod c = doc.length :=
    Int.fdiv_add_fmod _ _
  have hcc : ((c.toNat : Nat) : Int) = c := by omega
  have hppc_eq : (doc.length : Int).fdiv c = ((doc.length / c.toNat : Nat) : Int) := by
    rw [Int.fdiv_eq_ediv _ hc0, Int.ofNat_ediv, hcc]
  have hrem_eq : (doc.length : Int).fmod c = ((doc.length % c.toNat : Nat) : Int) := by
    rw [Int.fmod_eq_emod _ hc0, Int.ofNat_emod, hcc]
  have hsz : ∀ k, k < c.toNat →
      ((chunkSlices doc c).getD k []).length =
        doc.length / c.toNat + if k < doc.length % c.toNat then 1 else 0 := by
    intro k hk
    rw [chunkSlices, chunkSlices_size doc _ _ c hppc hc k hk, hppc_eq, hrem_eq]
    split
    · next hcond =>
      rw [if_pos (by exact_mod_cast hcond)]
      omega
    · next hcond =>
      rw [if_neg (by
        intro hn
        exact hcond (by exact_mod_cast hn))]
      omega
  refine ⟨?_, ?_, ?_, hsz, ?_⟩
  · rw [split_pdf, if_neg (by omega : ¬ c = 0)]
  · rw [chunkSlices, chunkLoop_length, length_intRange]
    omega
  · rw [chunkSlices]
    exact chunkLoop_full doc _ _ c hppc hrem hremlt hid
  · intro k1 k2 hk1 hk2
    rw [hsz k1 hk1, hsz k2 hk2]
    split <;> split <;> omega

/-- C5 witness: a 10-page document split into 3 chunks has sizes `[4, 3, 3]`. -/
theorem split_chunks_arithmetic_witness :
    (split_pdf (List.range 10) none (some 3) = .ok (chunkSlices (List.range 10) 3) ∧
      (chunkSlices (List.range 10) 3).length = (3 : Int).toNat ∧
      (chunkSlices (List.range 10) 3).flatten = List.range 10 ∧
      (∀ k, k < (3 : Int).toNat →
        ((chunkSlices (List.range 10) 3).getD k []).length =
          (List.range 10).length / (3 : Int).toNat +
            if k < (List.range 10).length % (3 : Int).toNat then 1 else 0) ∧
      ∀ k1 k2, k1 < (3 : Int).toNat → k2 < (3 : Int).toNat →
        ((chunkSlices (List.range 10) 3).getD k1 []).length ≤
          ((chunkSlices (List.range 10) 3).getD k2 []).length + 1) ∧
    (chunkSlices (List.range 10) 3).map List.length = [4, 3, 3] :=
  ⟨split_chunks_arithmetic (List.range 10) 3 (by decide), by decide⟩

/-- C6: rotation adds the angle to each selected page's existing rotation
value modulo 360 and leaves unselected pages unchanged; rotating every page
by 90 twice yields the same per-page values as rotating once by 180. -/
theorem rotate_composition :
    (∀ (doc : List Int) (angle : Int) (pages : Option String) (sel out : List Int),
      parse_page_ranges pages doc.length = some sel →
      rotate_pdf doc angle pages = some out →
      out.length = doc.length ∧
      ∀ j : Nat, out[j]? =
        doc[j]?.map (fun r => if (j : Int) ∈ sel then (r + angle) % 360 else r)) ∧
    ∀ doc : List Int,
      (rotate_pdf doc 90 none).bind (fun d => rotate_pdf d 90 none) =
        rotate_pdf doc 180 none := by
  constructor
  · intro doc angle pages sel out hparse hrot
    rw [rotate_pdf, selector_eq_parse, hparse] at hrot
    cases Option.some.inj hrot
    refine ⟨rotateLoop_length sel angle 0 doc, fun j => ?_⟩
    rw [rotateLoop_getElem? sel angle doc 0 j]
    have : (0 : Nat) + j = j := by omega
    rw [this]
  · intro doc
    have hnone : ∀ (d : List Int) (a : Int),
        rotate_pdf d a none = some (rotateLoop (intRange 0 d.length) a 0 d) :=
      fun d a => rfl
    rw [hnone doc 90, Option.some_bind, hnone _ 90, hnone doc 180,
      rotateLoop_length, rotateLoop_comp]
    norm_num

/-- C6 witness. -/
theorem rotate_composition_witness :
    (([90, 90] : List Int).length = ([0, 90] : List Int).length ∧
      ∀ j : Nat, ([90, 90] : List Int)[j]? =
        (([0, 90] : List Int)[j]?).map
          (fun r => if (j : Int) ∈ ([0] : List Int) then (r + 90) % 360 else r)) ∧
    (rotate_pdf [7, 13] 90 none).bind (fun d => rotate_pdf d 90 none) =
      rotate_pdf [7, 13] 180 none :=
  ⟨rotate_composition.1 [0, 90] 90 (some "1") [0] [90, 90] (by decide) (by decide),
   rotate_composition.2 [7, 13]⟩

/-- C7 (amended): the quality table is low 85 / medium 70 / high 50 /
extreme 30; every GRAY/RGB image (fewer than 4 non-alpha components) is
re-encoded at the level's quality, downscaled by
`min(dpi/width, dpi/height)` exactly when a dimension exceeds the target
DPI; images with 4 or more non-alpha components (e.g. CMYK) are left
untouched, contrary to the claim's "every embedded raster image". -/
theorem compress_image_rule :
    compression_quality "low" = 85 ∧ compression_quality "medium" = 70 ∧
    compression_quality "high" = 50 ∧ compression_quality "extreme" = 30 ∧
    (∀ (level : String) (dpi : Nat) (img : PdfImage),
      img.n - img.alpha < 4 →
      processImage (compression_quality level) dpi img =
        .reencoded img
          (if dpi < img.width ∨ dpi < img.height then
            some (min ((dpi : ℚ) / img.width) ((dpi : ℚ) / img.height))
          else none)
          (compression_quality level)) ∧
    ∀ (level : String) (dpi : Nat) (img : PdfImage),
      4 ≤ img.n - img.alpha →
      processImage (compression_quality level) dpi img = .untouched img := by
  refine ⟨rfl, rfl, rfl, rfl, fun level dpi img h => ?_, fun level dpi img h => ?_⟩
  · rw [processImage, if_pos h]
  · rw [processImage, if_neg (by omega)]

/-- C7 witness. -/
theorem compress_image_rule_witness :
    (processImage (compression_quality "high") 150 (PdfImage.mk 600 300 3 0) =
      .reencoded (PdfImage.mk 600 300 3 0)
        (if 150 < (PdfImage.mk 600 300 3 0).width ∨
            150 < (PdfImage.mk 600 300 3 0).height then
          some (min ((150 : ℚ) / (PdfImage.mk 600 300 3 0).width)
            ((150 : ℚ) / (PdfImage.mk 600 300 3 0).height))
        else none)
        (compression_quality "high")) ∧
    processImage (compression_quality "low") 150 (PdfImage.mk 10 10 4 0) =
      .untouched (PdfImage.mk 10 10 4 0) :=
  ⟨compress_image_rule.2.2.2.2.1 "high" 150 (PdfImage.mk 600 300 3 0) (by decide),
   compress_image_rule.2.2.2.2.2 "low" 150 (PdfImage.mk 10 10 4 0) (by decide)⟩

/-- C7 counterexample: a CMYK image (4 components, no alpha) larger than the
target DPI is not downscaled or re-encoded at all. -/
theorem compress_image_claim_counterexample :
    (150 : Nat) < 500 ∧
    processImage (compression_quality "medium") 150 (PdfImage.mk 500 400 4 0) =
      .untouched (PdfImage.mk 500 400 4 0) :=
  ⟨by decide, rfl⟩

/-- C10: an unknown compression level falls back to the medium settings, so
compression behaves exactly as with level "medium", without failing. -/
theorem compress_level_fallback (level : String)
    (h : level ∉ ["low", "medium", "high", "extreme"]) (dpi : Nat)
    (doc : List (List PdfImage)) :
    compress_pdf level dpi doc = compress_pdf "medium" dpi doc := by
  simp only [List.mem_cons, List.not_mem_nil, or_false, not_or] at h
  rw [compress_pdf, compress_pdf, compression_quality,
    if_neg h.1, if_neg h.2.1, if_neg h.2.2.1, if_neg h.2.2.2]
  rfl

/-- C10 witness. -/
theorem compress_level_fallback_witness :
    compress_pdf "ultra" 100 [[PdfImage.mk 300 200 3 0]] =
      compress_pdf "medium" 100 [[PdfImage.mk 300 200 3 0]] :=
  compress_level_fallback "ultra" (by decide) 100 [[PdfImage.mk 300 200 3 0]]

/-- C8: `extract_images` returns exactly the embedded images on selected
pages whose width and height both meet the minimums; an image failing either
dimension yields no entry even when the other dimension is large. -/
theorem extract_images_threshold (doc : List (List PdfImage)) (pages : Option String)
    (minw minh : Nat) (fmt : String) (sel : List Int) (out : List ExtractedImage)
    (hparse : parse_page_ranges pages doc.length = some sel)
    (hrun : extract_images doc pages minw minh fmt = some out) :
    (∀ e ∈ out, minw ≤ e.width ∧ minh ≤ e.height ∧ (e.page - 1) ∈ sel) ∧
    ∀ p ∈ sel, ∀ (j : Nat) (img : PdfImage),
      (pageImages doc p)[j]? = some img →
      ((minw ≤ img.width ∧ minh ≤ img.height) ↔
        ∃ e ∈ out, e.page = p + 1 ∧ e.index = j ∧
          e.width = img.width ∧ e.height = img.height) := by
  rw [extract_images, selector_eq_parse, hparse] at hrun
  cases Option.some.inj hrun
  constructor
  · intro e he
    rcases mem_collectPages.mp he with ⟨p, hp, hpe⟩
    rcases mem_pageEntries.mp hpe with ⟨j, img, _, hw, hh, rfl⟩
    exact ⟨hw, hh, by simpa using hp⟩
  · intro p hp j img hget
    constructor
    · rintro ⟨hw, hh⟩
      refine ⟨ExtractedImage.mk (p + 1) j img.width img.height fmt,
        mem_collectPages.mpr ⟨p, hp, mem_pageEntries.mpr ⟨j, img, hget, hw, hh, rfl⟩⟩,
        rfl, rfl, rfl, rfl⟩
    · rintro ⟨e, he, hpage, hidx, hw, hh⟩
      rcases mem_collectPages.mp he with ⟨q, _, hpe⟩
      rcases mem_pageEntries.mp hpe with ⟨j2, img2, hget2, hw2, hh2, rfl⟩
      simp only at hpage hidx hw hh
      have hq : q = p := by omega
      subst hq
      subst hidx
      rw [hget] at hget2
      cases Option.some.inj hget2
      exact ⟨hw ▸ hw2, hh ▸ hh2⟩

/-- C8 witness: with minimums 100x100, a 50x2000 image is excluded while a
200x300 image on the same page is returned. -/
theorem extract_images_threshold_witness :
    (∀ e ∈ [ExtractedImage.mk 1 1 200 300 "png"],
      100 ≤ e.width ∧ 100 ≤ e.height ∧ (e.page - 1) ∈ ([0] : List Int)) ∧
    ∀ p ∈ ([0] : List Int), ∀ (j : Nat) (img : PdfImage),
      (pageImages [[PdfImage.mk 50 2000 3 0, PdfImage.mk 200 300 3 0]] p)[j]? = some img →
      ((100 ≤ img.width ∧ 100 ≤ img.height) ↔
        ∃ e ∈ [ExtractedImage.mk 1 1 200 300 "png"], e.page = p + 1 ∧ e.index = j ∧
          e.width = img.width ∧ e.height = img.height) :=
  extract_images_threshold [[PdfImage.mk 50 2000 3 0, PdfImage.mk 200 300 3 0]]
    none 100 100 "png" [0] [ExtractedImage.mk 1 1 200 300 "png"]
    (by decide) (by decide)

end PdfApi
